import Mathlib

/-!
Verification development for the security-policy-builder assessment command
(`src/commands/psp-assess.ts`).  The definitions below are a shallow
embedding of the TypeScript source: JavaScript objects become association
lists in insertion order, JavaScript regular expressions are modelled by
executable functions on character lists, and the in-place writes the code
performs are made explicit as state passing.
-/

/-! ## Characters: JS regex and string classes -/

/-- Line terminators, exactly the characters a JS regex dot does not match
(U+000A, U+000D, U+2028, U+2029). -/
def isLineTerm (c : Char) : Bool :=
  c = '\n' || c = '\r' || c = '\u2028' || c = '\u2029'

/-- Whitespace removed by JS `String.prototype.trim` (the characters relevant
here: space, tab, form feed, vertical tab, NBSP, BOM, and line terminators). -/
def isJsSpace (c : Char) : Bool :=
  c = ' ' || c = '\t' || c = '\n' || c = '\r' || c = '\x0b' || c = '\x0c' ||
  c = '\u00A0' || c = '\uFEFF' || c = '\u2028' || c = '\u2029'

/-- The JS regex character class `[A-Z]` (ASCII uppercase only). -/
def isAsciiUpper (c : Char) : Bool := 'A' ≤ c && c ≤ 'Z'

/-- The JS regex character class `[a-z]` (ASCII lowercase only). -/
def isAsciiLower (c : Char) : Bool := 'a' ≤ c && c ≤ 'z'

/-! ## The gap-flag regular expression `/has(.*)Gap/`

Both sites in `psp-assess.ts` use the same unanchored pattern:
`/has(.*)Gap/.exec(orgKey)` in `calculateInputGaps` and
`/has.*Gap/.test(questionName)` in `gatherInputs`.  `execHasGap?` models the
JS semantics: scan start positions from the left; at a position the literal
`has` must match, then the greedy dot-star (which cannot cross a line
terminator) captures up to the last following occurrence of the literal
`Gap` in that terminator-free window. -/

def hasL : List Char := ['h', 'a', 's']

def gapL : List Char := ['G', 'a', 'p']

/-- Whether `s` starts with the pattern `p`. -/
def startsWithL : List Char → List Char → Bool
  | [], _ => true
  | _ :: _, [] => false
  | p :: ps, c :: cs => p == c && startsWithL ps cs

/-- Longest prefix free of line terminators: the window the JS dot can span. -/
def takeUntilTerm : List Char → List Char
  | [] => []
  | c :: cs => if isLineTerm c then [] else c :: takeUntilTerm cs

/-- Split off the text before the last occurrence of the literal `Gap`
(the greedy capture), or `none` when `Gap` does not occur. -/
def lastGapSplit? : List Char → Option (List Char)
  | [] => none
  | c :: cs =>
    match lastGapSplit? cs with
    | some pre => some (c :: pre)
    | none => if startsWithL gapL (c :: cs) then some [] else none

/-- `execHasGap? s` is `some topic` when `/has(.*)Gap/.exec(s)` matches,
with `topic` the captured group, and `none` when the regex does not match. -/
def execHasGap? : List Char → Option (List Char)
  | [] => none
  | c :: cs =>
    if startsWithL hasL (c :: cs) then
      match lastGapSplit? (takeUntilTerm ((c :: cs).drop 3)) with
      | some topic => some topic
      | none => execHasGap? cs
    else execHasGap? cs

/-- Model of `/has.*Gap/.test(questionName)` (the inversion filter in
`gatherInputs`); matching agrees with `execHasGap?` since the capture group
does not affect whether the pattern matches. -/
def gapFlagTest (k : String) : Bool := (execHasGap? k.data).isSome

/-! ## Topic spacing: `name.replace(/([A-Z])([a-z])/g, ' $1$2').trim()` -/

/-- Model of `replace(/([A-Z])([a-z])/g, ' $1$2')`: a space is inserted in
front of each non-overlapping uppercase-lowercase pair, scanning left to
right and resuming after a matched pair. -/
def insertSpaces : List Char → List Char
  | a :: b :: rest =>
    if isAsciiUpper a && isAsciiLower b then ' ' :: a :: b :: insertSpaces rest
    else a :: insertSpaces (b :: rest)
  | s => s

/-- Model of JS `String.prototype.trim`. -/
def jsTrim (s : List Char) : List Char :=
  (((s.dropWhile isJsSpace).reverse).dropWhile isJsSpace).reverse

/-- The `ref` computed in `calculateInputGaps` from a captured topic. -/
def mkRef (topic : List Char) : String := String.mk (jsTrim (insertSpaces topic))

/-! ## Data model -/

/-- A gap record (`Gap` in `src/types`): a reference and a title. -/
structure Gap where
  ref : String
  title : String
  deriving DecidableEq, Repr

/-- Values held by the answers / organization objects: booleans from confirm
questions, strings (free text, dates as text, sentinel values), and the
`Date` value the merged context carries. -/
inductive Value where
  | bool (b : Bool)
  | str (s : String)
  | date (t : Nat)
  deriving DecidableEq, Repr

/-- JS truthiness of a value, as used by `if (answers.hasPenTestGap)` and
by `!answers[gap]`. -/
def jsTruthy : Value → Bool
  | .bool b => b
  | .str s => !(s = "")
  | .date _ => true

/-- Truthiness of a possibly-absent object property (`undefined` is falsy). -/
def jsTruthyOpt : Option Value → Bool
  | none => false
  | some v => jsTruthy v

/-- A JS object, modelled as an association list in property insertion
order (the order `Object.keys` enumerates). -/
abbrev Obj := List (String × Value)

/-- Property read: first entry with the given key. -/
def lookupV (o : Obj) (k : String) : Option Value :=
  match o with
  | [] => none
  | (k', v) :: rest => if k' = k then some v else lookupV rest k

/-! ## `calculateInputGaps` (psp-assess.ts lines 171-191)

The source iterates `Object.keys(inputs)` in order, runs
`/has(.*)Gap/.exec(orgKey)` on each key, and for every match pushes
`{ref, title: '(see above)'}` — the value stored under the key is never
read. -/

def calculateInputGaps : Obj → List Gap
  | [] => []
  | (k, _v) :: rest =>
    match execHasGap? k.data with
    | some topic => { ref := mkRef topic, title := "(see above)" } :: calculateInputGaps rest
    | none => calculateInputGaps rest

/-! ## Answer normalization in `gatherInputs` (psp-assess.ts lines 206-246)

The source filters `Object.keys(answers)` by `/has.*Gap/.test` and assigns
`answers[gap] = !answers[gap]` for each matching key, then — when
`answers.hasPenTestGap` is truthy — assigns `'*TBD*'` to the four
`PEN_TEST_QUESTIONS` keys.  Both statement groups write into the same
`answers` object returned by the prompt. -/

/-- The inversion statements: each key matching `/has.*Gap/` gets the JS
boolean negation of its value; other keys keep their value. -/
def invertGapFlags (answers : Obj) : Obj :=
  answers.map (fun kv =>
    (kv.1, if gapFlagTest kv.1 then Value.bool (!jsTruthy kv.2) else kv.2))

/-- The dependent pen-test sub-questions (psp-assess.ts lines 199-204). -/
def PEN_TEST_QUESTIONS : List String :=
  ["lastPenTestDate", "lastPenTestProvider", "penTestFrequency", "nextPenTestDate"]

/-- JS property assignment `o[k] = v`: update the entry in place when the
key exists, append a new entry otherwise. -/
def jsSet (o : Obj) (k : String) (v : Value) : Obj :=
  if o.any (fun kv => kv.1 = k) then
    o.map (fun kv => (kv.1, if kv.1 = k then v else kv.2))
  else o ++ [(k, v)]

/-- The conditional-suppression statements: when `answers.hasPenTestGap` is
truthy, assign the sentinel `'*TBD*'` to each pen-test sub-question. -/
def suppressPenTest (answers : Obj) : Obj :=
  if jsTruthyOpt (lookupV answers "hasPenTestGap") then
    PEN_TEST_QUESTIONS.foldl (fun a item => jsSet a item (Value.str "*TBD*")) answers
  else answers

/-- The full normalization `gatherInputs` performs on the answers object. -/
def normalizeAnswers (answers : Obj) : Obj :=
  suppressPenTest (invertGapFlags answers)

/-- State-passing view of the normalization statements: the first component
is the contents of the raw answers object after the statements ran (the code
assigns into that very object), the second is the normalized mapping the
rest of `gatherInputs` uses.  In the source they are the same object. -/
def normalizeStep (raw : Obj) : Obj × Obj :=
  let n := normalizeAnswers raw
  (n, n)

/-- Object spread / `Object.assign` onto a copy: properties of `o2` are
written over `o1` left to right. -/
def mergeObj (o1 o2 : Obj) : Obj :=
  o2.foldl (fun acc kv => jsSet acc kv.1 kv.2) o1

/-- Outcome of `gatherInputs` on its two objects: the merged context it
returns, the contents of the prompt's answers object afterwards, and the
contents of `config.organization` afterwards (the source only reads `org`;
the spread `{...org, ...answers, ...}` builds a fresh object). -/
structure GatherEffect where
  contextResult : Obj
  answersAfter : Obj
  orgAfter : Obj
  deriving DecidableEq, Repr

/-- The derived text fields `gatherInputs` adds to the merged context. -/
def derivedFields (org : Obj) (now : Nat) (toc : String) : Obj :=
  [("date", Value.date now),
   ("policyTOC", Value.str toc),
   ("isHIPAACoveredEntityText",
     Value.str (if jsTruthyOpt (lookupV org "isHIPAACoveredEntity") then "is" else "is not")),
   ("isHIPAABusinessAssociateText",
     Value.str (if jsTruthyOpt (lookupV org "isHIPAABusinessAssociate") then "is" else "is not"))]

/-- The data transformation of `gatherInputs` (validation aside), with the
final contents of both source objects made explicit. -/
def gatherInputsEffect (org : Obj) (rawAnswers : Obj) (now : Nat) (toc : String) :
    GatherEffect :=
  let n := normalizeAnswers rawAnswers
  { contextResult := mergeObj (mergeObj org n) (derivedFields org now toc)
    answersAfter := n
    orgAfter := org }

/-! ## Gap aggregation (psp-assess.ts line 143): `inputGaps.concat(cpGaps)` -/

/-- Model of `Array.prototype.concat`, the whole of the aggregation step. -/
def combineGaps (inputGaps cpGaps : List Gap) : List Gap := inputGaps ++ cpGaps

/-! ## The run pipeline (psp-assess.ts `run` and `getRisksFromRegistry`)

Collaborators that live outside `src/commands/psp-assess.ts` (the
`assessment`, `configure`, `error` and `j1` modules) are passed in as
opaque total functions; `error.fatal` is modelled from the spec: usage and
configuration errors are "reported immediately and terminate the run"
with "a distinguishable non-zero outcome", here an `Except.error` carrying
the message and the exit code. -/

/-- Modelled from the spec: `error.fatal(message, code)` (the `error`
module is not part of the sources) terminates the run immediately; we model
the terminated run as an `Except.error` carrying message and exit code. -/
structure FatalError where
  message : String
  exitCode : Nat
  deriving DecidableEq, Repr

def EUSAGEERROR : Nat := 126

/-- A risk entity returned by the registry (opaque payload). -/
structure Entity where
  payload : String
  deriving DecidableEq, Repr

/-- Command-line inputs relevant to the modelled pipeline.  Optional string
flags are absent (`none`) or present; `includeRisks` is the truthiness of
the `-r` flag. -/
structure ProgramInput where
  standard : Option String
  config : Option String
  includeRisks : Bool
  account : Option String
  apiToken : Option String
  deriving DecidableEq, Repr

/-- JS falsiness of an optional string flag (`undefined` and `""`). -/
def jsFalsyStr : Option String → Bool
  | none => true
  | some s => s = ""

/-- Parsed configuration: the `organization` object. -/
structure PolicyBuilderConfig where
  organization : Obj
  deriving DecidableEq, Repr

/-- The collaborators `run` calls into, as black boxes: the risk query, the
risk-list and summary generators, validation, the prompt's answers, the
control/procedure gap results and the report renderer. -/
structure RunCollab where
  query : String → List Entity
  generateRiskList : List Entity → String
  validateOrgValues : Obj → Bool
  promptAnswers : Obj
  now : Nat
  policyTOC : String
  cpGaps : List Gap
  controlsMapping : String
  gapSummaryF : List Gap → String
  gapListF : List Gap → String
  reportF : Obj → String

/-- Model of `getRisksFromRegistry` (psp-assess.ts lines 32-52): the two
credential checks throw usage errors before any query is issued. -/
def getRisksFromRegistry (program : ProgramInput) (query : String → List Entity) :
    Except FatalError (List Entity) :=
  if jsFalsyStr program.account then
    .error { message := "Missing -a, --account <name> input!", exitCode := EUSAGEERROR }
  else if jsFalsyStr program.apiToken then
    .error { message := "Missing -k, --api-token <api_token> input!", exitCode := EUSAGEERROR }
  else .ok (query "find Risk with _beginOn > date.now - 1year")

/-- The risk-list branch of `run` (psp-assess.ts lines 122-128). -/
def riskPhase (program : ProgramInput) (c : RunCollab) : Except FatalError String :=
  if program.includeRisks then
    (getRisksFromRegistry program c.query).map c.generateRiskList
  else .ok "Detailed risk items omitted."

/-- Model of `gatherInputs` inside the run: org validation may terminate the
run, otherwise the merged context is produced. -/
def gatherInputsModel (config : PolicyBuilderConfig) (c : RunCollab) :
    Except FatalError Obj :=
  if !(c.validateOrgValues config.organization) then
    .error { message := "Please update your policy config file and re-run the policy builder before continuing with the assessment."
             exitCode := EUSAGEERROR }
  else
    .ok (gatherInputsEffect config.organization c.promptAnswers c.now c.policyTOC).contextResult

/-- What a completed run produces. -/
structure RunOutcome where
  riskList : String
  allGaps : List Gap
  finalContext : Obj
  report : String

/-- Model of `run` from the point the configuration is parsed: flag gate,
risk phase, input gathering, the two gap tabulations, aggregation, context
assembly and report generation, in source order. -/
def runModel (program : ProgramInput) (config : PolicyBuilderConfig) (c : RunCollab) :
    Except FatalError RunOutcome :=
  if jsFalsyStr program.standard || jsFalsyStr program.config then
    .error { message := "usage", exitCode := 2 }
  else
    match riskPhase program c with
    | .error e => .error e
    | .ok riskList =>
      match gatherInputsModel config c with
      | .error e => .error e
      | .ok inputs =>
        let inputGaps := calculateInputGaps inputs
        let allGaps := combineGaps inputGaps c.cpGaps
        let finalContext := mergeObj inputs
          [("gapList", Value.str (c.gapListF allGaps)),
           ("gapSummary", Value.str (c.gapSummaryF allGaps)),
           ("hipaaControlsMapping", Value.str c.controlsMapping),
           ("riskList", Value.str riskList)]
        .ok { riskList, allGaps, finalContext, report := c.reportF finalContext }

/-! ## Definitions written from the spec's words, for comparison -/

/-- Definition following the claim words (C10): the key contains the
substring `has` followed anywhere later by the substring `Gap`. -/
def containsSub (pat : List Char) : List Char → Bool
  | [] => pat.isEmpty
  | c :: cs => startsWithL pat (c :: cs) || containsSub pat cs

/-- Definition following the claim words (C10): unanchored containment of
`has` and then, anywhere later, `Gap`. -/
def containsHasThenGap : List Char → Bool
  | [] => false
  | c :: cs => (startsWithL hasL (c :: cs) && containsSub gapL ((c :: cs).drop 3)) ||
      containsHasThenGap cs

/-- Definition following the spec words (C4): insert a single space before
every position where a lowercase letter is immediately followed by an
uppercase letter, then trim. -/
def specInsertLU : List Char → List Char
  | a :: b :: rest =>
    if isAsciiLower a && isAsciiUpper b then a :: ' ' :: specInsertLU (b :: rest)
    else a :: specInsertLU (b :: rest)
  | s => s

/-- Spec-words spacing rule of C4 applied to a topic, trimmed. -/
def specLowerUpperRef (topic : List Char) : String :=
  String.mk (jsTrim (specInsertLU topic))

/-- Amended spacing rule: a single space before every uppercase letter that
is immediately followed by a lowercase letter (position-wise restatement of
the source's global replace, written independently of `insertSpaces`). -/
def specInsertUL : List Char → List Char
  | a :: b :: rest =>
    (if isAsciiUpper a && isAsciiLower b then [' ', a] else [a]) ++ specInsertUL (b :: rest)
  | s => s

/-- Whether a possibly-absent edge character is a non-space. -/
def edgeOk : Option Char → Bool
  | none => true
  | some c => !isJsSpace c

/-- A list has no whitespace at either edge. -/
def noEdgeSpace (l : List Char) : Bool := edgeOk l.head? && edgeOk l.getLast?

/-- Concrete inputs for exercising the run pipeline. -/
def cleanCollab : RunCollab :=
  { query := fun _ => []
    generateRiskList := fun _ => ""
    validateOrgValues := fun _ => true
    promptAnswers := []
    now := 0
    policyTOC := ""
    cpGaps := []
    controlsMapping := ""
    gapSummaryF := fun _ => ""
    gapListF := fun _ => ""
    reportF := fun _ => "" }

def emptyConfig : PolicyBuilderConfig := { organization := [] }

def programNoRisks : ProgramInput :=
  { standard := some "hipaa", config := some "config.json",
    includeRisks := false, account := none, apiToken := none }

def programMissingAccount : ProgramInput :=
  { standard := some "hipaa", config := some "config.json",
    includeRisks := true, account := none, apiToken := some "token" }

/-! ## Helper lemmas: the input gap extractor -/

/-- The extraction loop, characterized entry-wise: one gap per key on which
the regex matches, in key order, independent of the stored values. -/
theorem calculateInputGaps_eq_filterMap (o : Obj) :
    calculateInputGaps o = o.filterMap
      (fun kv => (execHasGap? kv.1.data).map
        (fun t => ({ ref := mkRef t, title := "(see above)" } : Gap))) := by
  induction o with
  | nil => rfl
  | cons kv rest ih =>
    obtain ⟨k, v⟩ := kv
    cases h : execHasGap? k.data with
    | none => simp [calculateInputGaps, List.filterMap_cons, h, ih]
    | some t => simp [calculateInputGaps, List.filterMap_cons, h, ih]

/-! ## Helper lemmas: topic spacing -/

theorem lower_not_upper (c : Char) (h : isAsciiLower c = true) : isAsciiUpper c = false := by
  simp only [isAsciiLower, Bool.and_eq_true, decide_eq_true_eq] at h
  have hz : ¬ c ≤ 'Z' := not_le.2 (lt_of_lt_of_le (by decide) h.1)
  simp [isAsciiUpper, hz]

theorem specInsertUL_cons_not_upper (b : Char) (l : List Char)
    (h : isAsciiUpper b = false) : specInsertUL (b :: l) = b :: specInsertUL l := by
  cases l with
  | nil => rfl
  | cons c cs => simp [specInsertUL, h]

/-- The source's global replace over non-overlapping uppercase-lowercase
pairs agrees with the position-wise insertion rule: the two can only differ
on overlapping matches, and an uppercase-lowercase pair can never overlap
with another on its lowercase letter. -/
theorem insertSpaces_eq_specInsertUL (l : List Char) : insertSpaces l = specInsertUL l := by
  have H : ∀ n (l : List Char), l.length ≤ n → insertSpaces l = specInsertUL l := by
    intro n
    induction n with
    | zero =>
      intro l hl
      have : l = [] := List.length_eq_zero.1 (Nat.le_zero.1 hl)
      subst this; rfl
    | succ n ih =>
      intro l hl
      match l with
      | [] => rfl
      | [c] => rfl
      | a :: b :: rest =>
        cases hab : isAsciiUpper a && isAsciiLower b with
        | true =>
          have hab' : isAsciiUpper a = true ∧ isAsciiLower b = true := by
            simpa using hab
          have hb : isAsciiUpper b = false := lower_not_upper b hab'.2
          have hr : insertSpaces rest = specInsertUL rest := by
            apply ih; simp at hl; omega
          simp [insertSpaces, specInsertUL, hab, specInsertUL_cons_not_upper b rest hb, hr]
        | false =>
          have hr : insertSpaces (b :: rest) = specInsertUL (b :: rest) := by
            apply ih; simp at hl ⊢; omega
          simp [insertSpaces, specInsertUL, hab, hr]
  exact H l.length l le_rfl

/-! ## Helper lemmas: trimming -/

theorem edgeOk_head?_dropWhile (l : List Char) :
    edgeOk ((l.dropWhile isJsSpace).head?) = true := by
  induction l with
  | nil => rfl
  | cons c cs ih =>
    cases h : isJsSpace c with
    | true => simpa [List.dropWhile_cons, h] using ih
    | false => simp [List.dropWhile_cons, h, edgeOk]

theorem getLast?_dropWhile (p : Char → Bool) (l : List Char) :
    l.dropWhile p = [] ∨ (l.dropWhile p).getLast? = l.getLast? := by
  induction l with
  | nil => exact Or.inl rfl
  | cons c cs ih =>
    cases h : p c with
    | false => right; simp [List.dropWhile_cons, h]
    | true =>
      have hd : (c :: cs).dropWhile p = cs.dropWhile p := by simp [List.dropWhile_cons, h]
      rw [hd]
      cases hcs : cs.dropWhile p with
      | nil => exact Or.inl rfl
      | cons d ds =>
        right
        rcases ih with h1 | h1
        · rw [h1] at hcs; cases hcs
        · rw [hcs] at h1
          rw [h1]
          cases cs with
          | nil => simp at hcs
          | cons e es => exact (List.getLast?_cons_cons).symm

/-- The trimmed string carries no whitespace at either edge. -/
theorem noEdgeSpace_jsTrim (s : List Char) : noEdgeSpace (jsTrim s) = true := by
  unfold noEdgeSpace jsTrim
  rw [List.head?_reverse, List.getLast?_reverse]
  have h2 : edgeOk ((s.dropWhile isJsSpace).reverse.dropWhile isJsSpace).head? = true :=
    edgeOk_head?_dropWhile _
  have h1 : edgeOk ((s.dropWhile isJsSpace).reverse.dropWhile isJsSpace).getLast? = true := by
    rcases getLast?_dropWhile isJsSpace (s.dropWhile isJsSpace).reverse with h | h
    · rw [h]; rfl
    · rw [h, List.getLast?_reverse]
      exact edgeOk_head?_dropWhile s
  rw [h1, h2]
  rfl

/-! ## Helper lemmas: object reads and writes -/

theorem lookupV_append_of_none (a b : Obj) (k : String) (h : lookupV a k = none) :
    lookupV (a ++ b) k = lookupV b k := by
  induction a with
  | nil => rfl
  | cons kv rest ih =>
    obtain ⟨k', v'⟩ := kv
    by_cases hk : k' = k
    · simp [lookupV, hk] at h
    · simp only [lookupV, if_neg hk] at h
      simpa [lookupV, hk] using ih h

theorem lookupV_append_of_some (a b : Obj) (k : String) (v : Value)
    (h : lookupV a k = some v) : lookupV (a ++ b) k = some v := by
  induction a with
  | nil => simp [lookupV] at h
  | cons kv rest ih =>
    obtain ⟨k', v'⟩ := kv
    by_cases hk : k' = k
    · simp [lookupV, hk] at h ⊢
      exact h
    · simp only [lookupV, if_neg hk] at h
      simpa [lookupV, hk] using ih h

theorem lookupV_invert (answers : Obj) (k : String) :
    lookupV (invertGapFlags answers) k =
      (lookupV answers k).map
        (fun v => if gapFlagTest k then Value.bool (!jsTruthy v) else v) := by
  induction answers with
  | nil => rfl
  | cons kv rest ih =>
    obtain ⟨k', v'⟩ := kv
    by_cases hk : k' = k
    · subst hk
      simp [invertGapFlags, lookupV]
    · simpa [invertGapFlags, lookupV, hk] using ih

theorem lookupV_none_of_any_false (o : Obj) (k : String)
    (h : o.any (fun kv => kv.1 = k) = false) : lookupV o k = none := by
  induction o with
  | nil => rfl
  | cons kv rest ih =>
    simp only [List.any_cons, Bool.or_eq_false_iff] at h
    have hk : kv.1 ≠ k := by
      intro e; rw [e] at h; simp at h
    simp only [lookupV, if_neg hk]
    exact ih h.2

theorem lookupV_setMap (o : Obj) (k : String) (v : Value)
    (h : o.any (fun kv => kv.1 = k) = true) :
    lookupV (o.map (fun kv => (kv.1, if kv.1 = k then v else kv.2))) k = some v := by
  induction o with
  | nil => simp at h
  | cons kv rest ih =>
    obtain ⟨k', v'⟩ := kv
    by_cases hk : k' = k
    · subst hk
      simp [lookupV]
    · simp only [List.any_cons, hk, decide_eq_true_eq, Bool.false_or] at h
      simp only [List.map_cons, lookupV, if_neg hk]
      exact ih (by simpa using h)

theorem lookupV_jsSet_same (o : Obj) (k : String) (v : Value) :
    lookupV (jsSet o k v) k = some v := by
  unfold jsSet
  cases h : o.any (fun kv => kv.1 = k) with
  | true => simpa [h] using lookupV_setMap o k v h
  | false =>
    simp only [h, Bool.false_eq_true, if_neg, ite_false]
    rw [lookupV_append_of_none _ _ _ (lookupV_none_of_any_false o k h)]
    simp [lookupV]

theorem lookupV_setMap_other (o : Obj) (k : String) (v : Value) (k' : String)
    (h : k' ≠ k) :
    lookupV (o.map (fun kv => (kv.1, if kv.1 = k then v else kv.2))) k' = lookupV o k' := by
  induction o with
  | nil => rfl
  | cons kv rest ih =>
    obtain ⟨k'', v''⟩ := kv
    by_cases hk2 : k'' = k'
    · subst hk2
      have hk : ¬k'' = k := fun e => h (by rw [e])
      simp [lookupV, hk]
    · by_cases hk : k'' = k
      · subst hk
        simp [lookupV, hk2, ih]
      · simp [lookupV, hk, hk2, ih]

theorem lookupV_jsSet_other (o : Obj) (k : String) (v : Value) (k' : String)
    (h : k' ≠ k) : lookupV (jsSet o k v) k' = lookupV o k' := by
  unfold jsSet
  cases ha : o.any (fun kv => kv.1 = k) with
  | true => simpa [ha] using lookupV_setMap_other o k v k' h
  | false =>
    simp only [ha, Bool.false_eq_true, ite_false]
    cases hl : lookupV o k' with
    | some w => rw [lookupV_append_of_some _ _ _ _ hl]
    | none =>
      rw [lookupV_append_of_none _ _ _ hl]
      have hne : ¬k = k' := fun e => h e.symm
      simp [lookupV, hne, hl]

/-! ## Helper lemmas: conditional suppression -/

theorem pen_questions_not_gapflag : ∀ q ∈ PEN_TEST_QUESTIONS, gapFlagTest q = false := by
  decide

theorem suppress_lookup_pen (a : Obj)
    (h : jsTruthyOpt (lookupV a "hasPenTestGap") = true) :
    ∀ q ∈ PEN_TEST_QUESTIONS,
      lookupV (suppressPenTest a) q = some (Value.str "*TBD*") := by
  intro q hq
  simp only [suppressPenTest, h, if_true, PEN_TEST_QUESTIONS,
    List.foldl_cons, List.foldl_nil]
  fin_cases hq
  · rw [lookupV_jsSet_other _ _ _ _ (by decide), lookupV_jsSet_other _ _ _ _ (by decide),
      lookupV_jsSet_other _ _ _ _ (by decide), lookupV_jsSet_same]
  · rw [lookupV_jsSet_other _ _ _ _ (by decide), lookupV_jsSet_other _ _ _ _ (by decide),
      lookupV_jsSet_same]
  · rw [lookupV_jsSet_other _ _ _ _ (by decide), lookupV_jsSet_same]
  · rw [lookupV_jsSet_same]

theorem suppress_lookup_gapflag (a : Obj) (k : String) (hk : gapFlagTest k = true) :
    lookupV (suppressPenTest a) k = lookupV a k := by
  have n1 : ¬k = "lastPenTestDate" := by
    intro e; rw [e] at hk; exact absurd hk (by decide)
  have n2 : ¬k = "lastPenTestProvider" := by
    intro e; rw [e] at hk; exact absurd hk (by decide)
  have n3 : ¬k = "penTestFrequency" := by
    intro e; rw [e] at hk; exact absurd hk (by decide)
  have n4 : ¬k = "nextPenTestDate" := by
    intro e; rw [e] at hk; exact absurd hk (by decide)
  cases h : jsTruthyOpt (lookupV a "hasPenTestGap") with
  | false => simp [suppressPenTest, h]
  | true =>
    simp only [suppressPenTest, h, if_true, PEN_TEST_QUESTIONS,
      List.foldl_cons, List.foldl_nil]
    rw [lookupV_jsSet_other _ _ _ _ n4, lookupV_jsSet_other _ _ _ _ n3,
      lookupV_jsSet_other _ _ _ _ n2, lookupV_jsSet_other _ _ _ _ n1]

/-! ## Helper lemmas: the regular expression -/

theorem startsWithL_iff (p s : List Char) :
    startsWithL p s = true ↔ ∃ t, s = p ++ t := by
  induction p generalizing s with
  | nil => simp [startsWithL]
  | cons a ps ih =>
    cases s with
    | nil =>
      simp only [startsWithL, List.cons_append]
      constructor
      · intro h; cases h
      · rintro ⟨t, h⟩; cases h
    | cons c cs =>
      simp only [startsWithL, Bool.and_eq_true, beq_iff_eq, ih, List.cons_append]
      constructor
      · rintro ⟨rfl, t, rfl⟩; exact ⟨t, rfl⟩
      · rintro ⟨t, h⟩
        injection h with h1 h2
        exact ⟨h1.symm, t, h2⟩

theorem takeUntilTerm_append_exists (s : List Char) :
    ∃ r, s = takeUntilTerm s ++ r := by
  induction s with
  | nil => exact ⟨[], rfl⟩
  | cons c cs ih =>
    cases h : isLineTerm c with
    | true => exact ⟨c :: cs, by simp [takeUntilTerm, h]⟩
    | false =>
      obtain ⟨r, hr⟩ := ih
      exact ⟨r, by simp [takeUntilTerm, h]; exact hr⟩

theorem takeUntilTerm_not_term (s : List Char) :
    ∀ c ∈ takeUntilTerm s, isLineTerm c = false := by
  induction s with
  | nil => intro c hc; cases hc
  | cons d ds ih =>
    intro c hc
    cases h : isLineTerm d with
    | true => simp [takeUntilTerm, h] at hc
    | false =>
      simp only [takeUntilTerm, h, Bool.false_eq_true, if_false] at hc
      rcases List.mem_cons.1 hc with rfl | hc
      · exact h
      · exact ih c hc

theorem takeUntilTerm_append_of_clean (a b : List Char)
    (h : ∀ c ∈ a, isLineTerm c = false) :
    takeUntilTerm (a ++ b) = a ++ takeUntilTerm b := by
  induction a with
  | nil => rfl
  | cons c cs ih =>
    have hc : isLineTerm c = false := h c (List.mem_cons_self c cs)
    have ih' := ih (fun d hd => h d (List.mem_cons_of_mem c hd))
    simp [takeUntilTerm, hc, ih']

theorem lastGapSplit?_some (w pre : List Char) (h : lastGapSplit? w = some pre) :
    ∃ t, w = pre ++ gapL ++ t := by
  induction w generalizing pre with
  | nil => cases h
  | cons c cs ih =>
    rw [lastGapSplit?] at h
    cases hcs : lastGapSplit? cs with
    | some pre' =>
      rw [hcs] at h
      injection h with h
      subst h
      obtain ⟨t, ht⟩ := ih pre' hcs
      exact ⟨t, by simp [ht]⟩
    | none =>
      rw [hcs] at h
      by_cases hsw : startsWithL gapL (c :: cs) = true
      · rw [if_pos hsw] at h
        injection h with h
        subst h
        obtain ⟨t, ht⟩ := (startsWithL_iff gapL (c :: cs)).1 hsw
        exact ⟨t, by simpa using ht⟩
      · rw [if_neg hsw] at h; cases h

theorem lastGapSplit?_isSome (pre t : List Char) :
    (lastGapSplit? (pre ++ gapL ++ t)).isSome = true := by
  induction pre with
  | nil =>
    show (lastGapSplit? ('G' :: 'a' :: 'p' :: t)).isSome = true
    rw [lastGapSplit?]
    cases hcs : lastGapSplit? ('a' :: 'p' :: t) with
    | some pre' => simp
    | none =>
      have : startsWithL gapL ('G' :: 'a' :: 'p' :: t) = true := by
        simp [gapL, startsWithL]
      simp [this]
  | cons c cs ih =>
    show (lastGapSplit? (c :: (cs ++ gapL ++ t))).isSome = true
    rw [lastGapSplit?]
    cases hcs : lastGapSplit? (cs ++ gapL ++ t) with
    | some pre' => simp
    | none => rw [hcs] at ih; simp at ih

theorem execHasGap?_mono (c : Char) (cs : List Char)
    (h : (execHasGap? cs).isSome = true) : (execHasGap? (c :: cs)).isSome = true := by
  rw [execHasGap?]
  cases hsw : startsWithL hasL (c :: cs) with
  | false => simpa [hsw] using h
  | true =>
    cases hlg : lastGapSplit? (takeUntilTerm ((c :: cs).drop 3)) with
    | some topic => simp [hsw, hlg]
    | none => simpa [hsw, hlg] using h

/-- Forward direction: a successful match yields a decomposition of the key
into `has`, a line-terminator-free middle, and `Gap`. -/
theorem execHasGap?_decomp (s : List Char) (h : (execHasGap? s).isSome = true) :
    ∃ x y z, s = x ++ hasL ++ y ++ gapL ++ z ∧ ∀ c ∈ y, isLineTerm c = false := by
  induction s with
  | nil => simp [execHasGap?] at h
  | cons c cs ih =>
    rw [execHasGap?] at h
    cases hsw : startsWithL hasL (c :: cs) with
    | false =>
      rw [hsw] at h
      simp only [Bool.false_eq_true, if_false] at h
      obtain ⟨x, y, z, hx, hy⟩ := ih h
      exact ⟨c :: x, y, z, by simp [hx], hy⟩
    | true =>
      rw [hsw] at h
      simp only [if_true] at h
      cases hlg : lastGapSplit? (takeUntilTerm ((c :: cs).drop 3)) with
      | none =>
        rw [hlg] at h
        obtain ⟨x, y, z, hx, hy⟩ := ih h
        exact ⟨c :: x, y, z, by simp [hx], hy⟩
      | some topic =>
        obtain ⟨t0, ht0⟩ := (startsWithL_iff hasL (c :: cs)).1 hsw
        have hdrop : (c :: cs).drop 3 = t0 := by rw [ht0]; simp [hasL]
        obtain ⟨r, hr⟩ := takeUntilTerm_append_exists t0
        rw [hdrop] at hlg
        obtain ⟨t', ht'⟩ := lastGapSplit?_some _ _ hlg
        refine ⟨[], topic, t' ++ r, ?_, ?_⟩
        · rw [ht0]
          conv_lhs => rw [hr, ht']
          simp
        · intro d hd
          apply takeUntilTerm_not_term t0
          rw [ht']
          exact List.mem_append.2 (Or.inl (List.mem_append.2 (Or.inl hd)))

/-- Backward direction: any key containing `has`, then a line-terminator-free
stretch, then `Gap`, is matched by the pattern. -/
theorem execHasGap?_of_decomp (x y z : List Char)
    (hy : ∀ c ∈ y, isLineTerm c = false) :
    (execHasGap? (x ++ hasL ++ y ++ gapL ++ z)).isSome = true := by
  induction x with
  | cons c cs ih =>
    simp only [List.cons_append]
    exact execHasGap?_mono c _ ih
  | nil =>
    have hs : ([] : List Char) ++ hasL ++ y ++ gapL ++ z =
        'h' :: 'a' :: 's' :: (y ++ gapL ++ z) := by simp [hasL]
    rw [hs, execHasGap?]
    have hsw : startsWithL hasL ('h' :: 'a' :: 's' :: (y ++ gapL ++ z)) = true := by
      simp [hasL, startsWithL]
    have hclean : ∀ c ∈ y ++ gapL, isLineTerm c = false := by
      intro c hc
      rcases List.mem_append.1 hc with hc | hc
      · exact hy c hc
      · fin_cases hc <;> decide
    have hdrop : ('h' :: 'a' :: 's' :: (y ++ gapL ++ z)).drop 3 = (y ++ gapL) ++ z := by
      simp
    have htw : takeUntilTerm ((y ++ gapL) ++ z) = (y ++ gapL) ++ takeUntilTerm z :=
      takeUntilTerm_append_of_clean (y ++ gapL) z hclean
    obtain ⟨pre, hpre⟩ :=
      Option.isSome_iff_exists.1 (lastGapSplit?_isSome y (takeUntilTerm z))
    have hsw2 : startsWithL hasL ('h' :: 'a' :: 's' :: (y ++ (gapL ++ z))) = true := by
      simpa using hsw
    have htw2 : takeUntilTerm (y ++ (gapL ++ z)) = y ++ (gapL ++ takeUntilTerm z) := by
      simpa using htw
    have hpre2 : lastGapSplit? (y ++ (gapL ++ takeUntilTerm z)) = some pre := by
      simpa using hpre
    simp [hsw2, htw2, hpre2]

/-- The recognition predicate, settled both ways: the unanchored pattern
matches exactly the keys containing `has` followed later by `Gap` with no
line terminator in between. -/
theorem execHasGap?_isSome_iff (s : List Char) :
    (execHasGap? s).isSome = true ↔
      ∃ x y z, s = x ++ hasL ++ y ++ gapL ++ z ∧ ∀ c ∈ y, isLineTerm c = false := by
  constructor
  · exact execHasGap?_decomp s
  · rintro ⟨x, y, z, rfl, hy⟩
    exact execHasGap?_of_decomp x y z hy

/-! ## The claims -/

/-- C1, counterexample: a key matching the pattern whose value is `false`
still yields a gap — `calculateInputGaps` never reads the stored value, so
the claim's "false-valued keys yield no Gap" fails on this input. -/
theorem claim_C1_counterexample :
    calculateInputGaps [("hasPenTestGap", Value.bool false)] =
      [{ ref := "Pen Test", title := "(see above)" }] ∧
    calculateInputGaps [("hasPenTestGap", Value.bool false)] ≠ [] := by
  constructor <;> decide

/-- C1 (amended): every key on which the gap pattern matches yields exactly
one Gap with ref the spaced topic and title "(see above)", regardless of the
stored value (true, false, or non-boolean alike); keys the pattern does not
match yield none. -/
theorem claim_C1 :
    (∀ inputs : Obj, calculateInputGaps inputs = inputs.filterMap
      (fun kv => (execHasGap? kv.1.data).map
        (fun t => ({ ref := mkRef t, title := "(see above)" } : Gap)))) ∧
    (∀ (k : String) (v v' : Value) (rest : Obj),
      calculateInputGaps ((k, v) :: rest) = calculateInputGaps ((k, v') :: rest)) := by
  refine ⟨calculateInputGaps_eq_filterMap, ?_⟩
  intro k v v' rest
  cases h : execHasGap? k.data <;> simp [calculateInputGaps, h]

/-- C2, counterexample: the normalization statements write into the raw
answers object, so after `gatherInputs` runs, the object the prompt returned
no longer holds its original contents. -/
theorem claim_C2_counterexample :
    (normalizeStep [("hasPenTestGap", Value.bool true)]).1 ≠
      [("hasPenTestGap", Value.bool true)] := by decide

/-- C2 (amended): the normalization mutates the raw answers mapping in place
(afterwards the object holds exactly the normalized mapping, which in
general differs from the raw one), while the caller's organization config is
never written and the merged context is a fresh object. -/
theorem claim_C2 :
    (∀ raw : Obj, (normalizeStep raw).1 = normalizeAnswers raw) ∧
    (¬ ∀ raw : Obj, (normalizeStep raw).1 = raw) ∧
    (∀ (org raw : Obj) (now : Nat) (toc : String),
      (gatherInputsEffect org raw now toc).orgAfter = org ∧
      (gatherInputsEffect org raw now toc).answersAfter = normalizeAnswers raw) := by
  refine ⟨fun raw => rfl, ?_, fun org raw now toc => ⟨rfl, rfl⟩⟩
  intro h
  have := h [("hasPenTestGap", Value.bool true)]
  exact absurd this (by decide)

/-- C3, counterexample: the key `hasGap` matches with an empty topic, so the
emitted gap's ref is the empty string, refuting "never empty". -/
theorem claim_C3_counterexample :
    (calculateInputGaps [("hasGap", Value.bool true)]).map Gap.ref = [""] := by decide

/-- C3 (amended): every emitted gap's ref is the spaced form of the matched
topic and carries no leading or trailing whitespace; it can, however, be
empty when the matched topic is empty. -/
theorem claim_C3 (inputs : Obj) (g : Gap) (hg : g ∈ calculateInputGaps inputs) :
    (∃ kv ∈ inputs, ∃ topic,
      execHasGap? kv.1.data = some topic ∧ g.ref = mkRef topic) ∧
    noEdgeSpace g.ref.data = true := by
  rw [calculateInputGaps_eq_filterMap] at hg
  obtain ⟨kv, hkv, hf⟩ := List.mem_filterMap.1 hg
  cases ht : execHasGap? kv.1.data with
  | none => rw [ht] at hf; cases hf
  | some topic =>
    rw [ht] at hf
    simp only [Option.map_some'] at hf
    injection hf with hf
    constructor
    · exact ⟨kv, hkv, topic, ht, by rw [← hf]⟩
    · rw [← hf]
      exact noEdgeSpace_jsTrim _

theorem claim_C3_witness :
    (∃ kv ∈ ([("hasPenTestGap", Value.bool true)] : Obj), ∃ topic,
      execHasGap? kv.1.data = some topic ∧
      ({ ref := "Pen Test", title := "(see above)" } : Gap).ref = mkRef topic) ∧
    noEdgeSpace ({ ref := "Pen Test", title := "(see above)" } : Gap).ref.data = true :=
  claim_C3 [("hasPenTestGap", Value.bool true)]
    { ref := "Pen Test", title := "(see above)" } (by decide)

/-- C4, counterexample: for the key `hasXRayGap` the code emits ref
`"X Ray"`, while the spec's rule — a space before every uppercase letter
preceded by a lowercase one — leaves `"XRay"` unchanged. -/
theorem claim_C4_counterexample :
    (calculateInputGaps [("hasXRayGap", Value.bool true)]).map Gap.ref = ["X Ray"] ∧
    specLowerUpperRef "XRay".data = "XRay" ∧ ("X Ray" : String) ≠ "XRay" := by decide

/-- C4 (amended): each matching key's ref equals the topic with a single
space inserted before every uppercase letter immediately followed by a
lowercase letter, then trimmed; in particular topic `PenTest` yields
`"Pen Test"`. -/
theorem claim_C4 :
    (∀ topic : List Char, mkRef topic = String.mk (jsTrim (specInsertUL topic))) ∧
    (∀ v : Value,
      (calculateInputGaps [("hasPenTestGap", v)]).map Gap.ref = ["Pen Test"]) := by
  constructor
  · intro topic
    unfold mkRef
    rw [insertSpaces_eq_specInsertUL]
  · intro v
    have h : execHasGap? "hasPenTestGap".data = some "PenTest".data := by decide
    simp only [calculateInputGaps, h, List.map_cons, List.map_nil]
    have : mkRef "PenTest".data = "Pen Test" := by decide
    simp [this]

/-- C5: a gap-flag question's boolean value is replaced by its negation by
the normalization, exactly once: raw `true` becomes `false` (no gap) and raw
`false` becomes `true` (gap). -/
theorem claim_C5 (answers : Obj) (k : String) (b : Bool)
    (hk : gapFlagTest k = true)
    (hv : lookupV answers k = some (Value.bool b)) :
    lookupV (normalizeAnswers answers) k = some (Value.bool (!b)) := by
  unfold normalizeAnswers
  rw [suppress_lookup_gapflag _ k hk, lookupV_invert, hv]
  simp [hk, jsTruthy]

theorem claim_C5_witness :
    lookupV (normalizeAnswers [("hasPenTestGap", Value.bool true)]) "hasPenTestGap" =
      some (Value.bool false) :=
  claim_C5 [("hasPenTestGap", Value.bool true)] "hasPenTestGap" true
    (by decide) (by decide)

/-- C6: whenever `hasPenTestGap` is `true` after inversion, the four
pen-test sub-questions all end up holding the sentinel `"*TBD*"`, whatever
they originally held. -/
theorem claim_C6 (answers : Obj)
    (h : lookupV (invertGapFlags answers) "hasPenTestGap" = some (Value.bool true)) :
    ∀ q ∈ PEN_TEST_QUESTIONS,
      lookupV (normalizeAnswers answers) q = some (Value.str "*TBD*") := by
  unfold normalizeAnswers
  exact suppress_lookup_pen _ (by rw [h]; rfl)

theorem claim_C6_witness :
    lookupV (normalizeAnswers
        [("hasPenTestGap", Value.bool false),
         ("lastPenTestDate", Value.str "2020-01-01")]) "lastPenTestDate" =
      some (Value.str "*TBD*") :=
  claim_C6
    [("hasPenTestGap", Value.bool false), ("lastPenTestDate", Value.str "2020-01-01")]
    (by decide) "lastPenTestDate" (by decide)

/-- C7: aggregation concatenates the interview-derived input gaps before the
control/procedure gaps, preserving the order within each list; in particular
`combine([gapA],[gapB])` is `[gapA, gapB]`. -/
theorem claim_C7 :
    (∀ gapA gapB : Gap, combineGaps [gapA] [gapB] = [gapA, gapB]) ∧
    (∀ (g1 g2 : List Gap) (i : Nat),
      (combineGaps g1 g2)[i]? =
        if i < g1.length then g1[i]? else g2[i - g1.length]?) := by
  constructor
  · intro a b; rfl
  · intro g1 g2 i
    unfold combineGaps
    by_cases h : i < g1.length
    · rw [if_pos h]
      exact List.getElem?_append_left h
    · rw [if_neg h]
      exact List.getElem?_append_right (Nat.le_of_not_lt h)

/-- C8: when risks are not requested, the run substitutes the fixed literal
for the risk list, proceeds to a normal completion, and the report context's
riskList field holds exactly that literal. -/
theorem claim_C8 (program : ProgramInput) (config : PolicyBuilderConfig) (c : RunCollab)
    (hs : jsFalsyStr program.standard = false)
    (hc : jsFalsyStr program.config = false)
    (hr : program.includeRisks = false)
    (hv : c.validateOrgValues config.organization = true) :
    ∃ o : RunOutcome, runModel program config c = .ok o ∧
      o.riskList = "Detailed risk items omitted." ∧
      lookupV o.finalContext "riskList" =
        some (Value.str "Detailed risk items omitted.") := by
  have hrisk : riskPhase program c = .ok "Detailed risk items omitted." := by
    simp [riskPhase, hr]
  have hgi : gatherInputsModel config c = .ok
      (gatherInputsEffect config.organization c.promptAnswers c.now
        c.policyTOC).contextResult := by
    simp [gatherInputsModel, hv]
  unfold runModel
  rw [hs, hc, hrisk, hgi]
  refine ⟨_, rfl, rfl, ?_⟩
  simp only [mergeObj, List.foldl_cons, List.foldl_nil]
  exact lookupV_jsSet_same _ _ _

theorem claim_C8_witness :
    ∃ o : RunOutcome, runModel programNoRisks emptyConfig cleanCollab = .ok o ∧
      o.riskList = "Detailed risk items omitted." ∧
      lookupV o.finalContext "riskList" =
        some (Value.str "Detailed risk items omitted.") :=
  claim_C8 programNoRisks emptyConfig cleanCollab rfl rfl rfl rfl

/-- C9: with risks requested and the account or the API token missing, the
run terminates with the usage error (exit code 126, distinguishably
non-zero), and the very same error results for every choice of collaborators
— so no risk query was issued and no report was produced. -/
theorem claim_C9 (program : ProgramInput)
    (hs : jsFalsyStr program.standard = false)
    (hc : jsFalsyStr program.config = false)
    (hr : program.includeRisks = true)
    (hm : jsFalsyStr program.account = true ∨ jsFalsyStr program.apiToken = true) :
    ∃ e : FatalError, e.exitCode = EUSAGEERROR ∧ e.exitCode ≠ 0 ∧
      ∀ (config : PolicyBuilderConfig) (c : RunCollab),
        runModel program config c = .error e := by
  by_cases ha : jsFalsyStr program.account = true
  · refine ⟨⟨"Missing -a, --account <name> input!", EUSAGEERROR⟩, rfl, by decide, ?_⟩
    intro config c
    have hrisk : riskPhase program c =
        .error ⟨"Missing -a, --account <name> input!", EUSAGEERROR⟩ := by
      simp [riskPhase, hr, getRisksFromRegistry, ha, Except.map]
    unfold runModel
    rw [hs, hc, hrisk]
    rfl
  · have hk : jsFalsyStr program.apiToken = true := by
      rcases hm with hm | hm
      · exact absurd hm ha
      · exact hm
    refine ⟨⟨"Missing -k, --api-token <api_token> input!", EUSAGEERROR⟩, rfl, by decide, ?_⟩
    intro config c
    have ha' : jsFalsyStr program.account = false := by
      cases h : jsFalsyStr program.account
      · rfl
      · exact absurd h ha
    have hrisk : riskPhase program c =
        .error ⟨"Missing -k, --api-token <api_token> input!", EUSAGEERROR⟩ := by
      simp [riskPhase, hr, getRisksFromRegistry, ha', hk, Except.map]
    unfold runModel
    rw [hs, hc, hrisk]
    rfl

theorem claim_C9_witness :
    ∃ e : FatalError, e.exitCode = EUSAGEERROR ∧ e.exitCode ≠ 0 ∧
      runModel programMissingAccount emptyConfig cleanCollab = .error e := by
  obtain ⟨e, h1, h2, h3⟩ :=
    claim_C9 programMissingAccount rfl rfl rfl (Or.inl rfl)
  exact ⟨e, h1, h2, h3 emptyConfig cleanCollab⟩

/-- C10, counterexample: the key `"has\nGap"` contains `has` followed later
by `Gap`, yet neither site treats it as a gap-flag question — the JS dot
does not match the line terminator between them. -/
theorem claim_C10_counterexample :
    containsHasThenGap "has\nGap".data = true ∧ gapFlagTest "has\nGap" = false := by
  decide

/-- C10 (amended): the shared recognition predicate is an unanchored match:
a key is treated as a gap-flag question exactly when it contains `has`
followed later by `Gap` with no line terminator between them; in particular
`phaseGap` and `xhasFooGapy` count as gap-flag questions. -/
theorem claim_C10 :
    (∀ s : List Char, (execHasGap? s).isSome = true ↔
      ∃ x y z, s = x ++ hasL ++ y ++ gapL ++ z ∧ ∀ c ∈ y, isLineTerm c = false) ∧
    gapFlagTest "phaseGap" = true ∧ gapFlagTest "xhasFooGapy" = true :=
  ⟨execHasGap?_isSome_iff, by decide, by decide⟩

